import Mathlib

/-!
Shallow embedding of `generate_index.py` (DSPi-Console): a batch tool that
scans a directory tree of AutoEQ parametric-EQ text files, parses each
profile, deduplicates entries across sources by priority, sorts and emits a
JSON catalog.  Strings are modelled as `List Char` (ASCII behaviour of
Python's `str` methods), Python floats as `ℚ` (the program only parses and
stores decimal literals, never computes with them), and raisable code as
`Except Unit`.
-/

namespace GenIndex

/-- Python strings, modelled as lists of characters. -/
abbrev Str := List Char

/-- ASCII whitespace recognized by Python's `str.strip` / regex `\s`. -/
def isSpaceChar (c : Char) : Bool :=
  c = ' ' || c = '\t' || c = '\n' || c = '\r' || c = '\x0b' || c = '\x0c'

/-- Python `str.lower` (ASCII). -/
def pyLower (s : Str) : Str := s.map Char.toLower

/-- Python `str.upper` (ASCII). -/
def pyUpper (s : Str) : Str := s.map Char.toUpper

/-- Python `str.strip` (ASCII whitespace). -/
def pyStrip (s : Str) : Str :=
  ((s.dropWhile isSpaceChar).reverse.dropWhile isSpaceChar).reverse

/-- Boolean prefix test: `isPrefixB p s` iff `p` is a prefix of `s`
(Python `s.startswith(p)`). -/
def isPrefixB : Str → Str → Bool
  | [], _ => true
  | _ :: _, [] => false
  | p :: ps, c :: cs => p = c && isPrefixB ps cs

/-- Python substring containment `sub in s`. -/
def hasSub : Str → Str → Bool
  | [], sub => isPrefixB sub []
  | c :: t, sub => isPrefixB sub (c :: t) || hasSub t sub

/-- Case-insensitive containment: `sub` occurs in `s` ignoring ASCII case. -/
def hasSubCI (s sub : Str) : Bool := hasSub (pyUpper s) (pyUpper sub)

/-- Python `str.split('\n')`: split on every newline, keeping empty pieces. -/
def splitLines : Str → List Str
  | [] => [[]]
  | '\n' :: t => [] :: splitLines t
  | c :: t =>
    match splitLines t with
    | [] => [[c]]
    | l :: ls => (c :: l) :: ls

/-- Value of a digit string read in base 10. -/
def digitsToNat (l : Str) : ℕ :=
  l.foldl (fun n c => 10 * n + (c.toNat - '0'.toNat)) 0

/-- A Python float as this program produces and stores one: an exact
decimal, kept as sign, mantissa and decimal scale (value
`± mant / 10 ^ scale`).  The program only parses, stores and serializes
these numbers — it never computes with them — so the exact decimal
representation is faithful. -/
structure PyFloat where
  neg : Bool
  mant : ℕ
  scale : ℕ
deriving DecidableEq, Repr

/-- The rational value of a stored float. -/
def PyFloat.toRat (x : PyFloat) : ℚ :=
  (if x.neg then -1 else 1) * (x.mant : ℚ) / (10 : ℚ) ^ x.scale

/-- The embedding of the float literal `1000.0` (the `Fc` default). -/
def lit1000 : PyFloat := ⟨false, 10000, 1⟩

/-- The embedding of the float literal `0.0` (the `Gain` and preamp
default). -/
def lit0 : PyFloat := ⟨false, 0, 1⟩

/-- The embedding of the float literal `0.707` (the `Q` default). -/
def lit707 : PyFloat := ⟨false, 707, 3⟩

/-- Python `float()` applied to an unsigned string of digits and dots:
succeeds iff there is at least one digit and at most one dot. -/
def pyFloatNN (r : Str) : Option PyFloat :=
  let I := r.takeWhile (fun c => c.isDigit)
  match r.dropWhile (fun c => c.isDigit) with
  | [] => if I = [] then none else some ⟨false, digitsToNat I, 0⟩
  | '.' :: F =>
    if F.all (fun c => c.isDigit) && (I ≠ [] || F ≠ []) then
      some ⟨false, digitsToNat (I ++ F), F.length⟩
    else none
  | _ => none

/-- Python `float()` on the strings this program can capture:
an optional leading minus, then digits and dots. -/
def pyFloat : Str → Option PyFloat
  | '-' :: r => (pyFloatNN r).map (fun v => ⟨true, v.mant, v.scale⟩)
  | s => pyFloatNN s

/-- Match the regex `\d+\.?\d*` greedily at the start of `l`, returning the
matched lexeme. -/
def matchUnsigned (l : Str) : Option Str :=
  let ds := l.takeWhile (fun c => c.isDigit)
  if ds = [] then none
  else
    match l.dropWhile (fun c => c.isDigit) with
    | '.' :: r2 => some (ds ++ '.' :: r2.takeWhile (fun c => c.isDigit))
    | _ => some ds

/-- Match the regex `-?\d+\.?\d*` at the start of `l`. -/
def matchSigned (l : Str) : Option Str :=
  match l with
  | '-' :: r =>
    match matchUnsigned r with
    | some g => some ('-' :: g)
    | none => none
  | _ => matchUnsigned l

/-- Match `Fc\s+(\d+\.?\d*)` (case-insensitive) at the start of `l`,
returning the captured group. -/
def matchFc (l : Str) : Option Str :=
  match l with
  | a :: b :: r =>
    if (a = 'F' || a = 'f') && (b = 'C' || b = 'c') then
      let sp := r.takeWhile isSpaceChar
      if sp = [] then none else matchUnsigned (r.dropWhile isSpaceChar)
    else none
  | _ => none

/-- Match `Gain\s+(-?\d+\.?\d*)` (case-insensitive) at the start of `l`,
returning the captured group. -/
def matchGain (l : Str) : Option Str :=
  match l with
  | a :: b :: c :: d :: r =>
    if (a = 'G' || a = 'g') && (b = 'A' || b = 'a') &&
        (c = 'I' || c = 'i') && (d = 'N' || d = 'n') then
      let sp := r.takeWhile isSpaceChar
      if sp = [] then none else matchSigned (r.dropWhile isSpaceChar)
    else none
  | _ => none

/-- Match `\sQ\s+([\d.]+)` (case-insensitive) at the start of `l`,
returning the captured group.  The capture class `[\d.]` admits dots, so
the group need not be a valid float. -/
def matchQ (l : Str) : Option Str :=
  match l with
  | s :: q :: r =>
    if isSpaceChar s && (q = 'Q' || q = 'q') then
      let sp := r.takeWhile isSpaceChar
      if sp = [] then none
      else
        let g := (r.dropWhile isSpaceChar).takeWhile (fun c => c.isDigit || c = '.')
        if g = [] then none else some g
    else none
  | _ => none

/-- Python `re.search`: try the matcher at each start position, leftmost
success wins. -/
def reSearch (m : Str → Option Str) : Str → Option Str
  | [] => m []
  | c :: t =>
    match m (c :: t) with
    | some g => some g
    | none => reSearch m t

/-- The five canonical filter types of the output format. -/
inductive FType where
  | peaking | lowShelf | highShelf | lowPass | highPass
deriving DecidableEq, Repr

/-- One parametric-EQ band as emitted in the catalog. -/
structure Filter where
  type : FType
  freq : PyFloat
  q : PyFloat
  gain : PyFloat
deriving DecidableEq, Repr

/-- `FILTER_TYPES`: AutoEQ short code → canonical type, in source order. -/
def FILTER_TYPES : List (Str × FType) :=
  [("PK".toList, .peaking), ("PEQ".toList, .peaking),
   ("LSC".toList, .lowShelf), ("LSB".toList, .lowShelf), ("LS".toList, .lowShelf),
   ("HSC".toList, .highShelf), ("HSB".toList, .highShelf), ("HS".toList, .highShelf),
   ("LP".toList, .lowPass), ("LPQ".toList, .lowPass),
   ("HP".toList, .highPass), ("HPQ".toList, .highPass)]

/-- The `for code, ftype in FILTER_TYPES.items()` loop with `break`:
first code whose space-surrounded form occurs in the uppercased line wins. -/
def detectGo (u : Str) : List (Str × FType) → Option FType
  | [] => none
  | (code, t) :: rest =>
    if hasSub u (' ' :: (code ++ [' '])) then some t else detectGo u rest

/-- Filter-type detection over the uppercased line (source lines 112–117). -/
def detectFilterType (u : Str) : Option FType := detectGo u FILTER_TYPES

/-- `float(match.group(...))` with a default for a failed search: a missing
match yields the default, a captured group that is not a valid float raises
(models the uncaught `ValueError`). -/
def toFloatOr (dflt : PyFloat) : Option Str → Except Unit PyFloat
  | none => .ok dflt
  | some g =>
    match pyFloat g with
    | some v => .ok v
    | none => .error ()

/-- The filter branch of the line loop (source lines 104–145): eligibility
checks, type detection, then `Fc`/`Gain`/`Q` extraction with defaults
1000.0 / 0.0 / 0.707. -/
def parseFilterLine (line : Str) : Except Unit (Option Filter) :=
  if !(hasSub line ("Filter".toList)) || !(hasSub line [':']) then .ok none
  else if !(hasSub (pyUpper line) (" ON ".toList)) then .ok none
  else
    match detectFilterType (pyUpper line) with
    | none => .ok none
    | some t =>
      match toFloatOr lit1000 (reSearch matchFc line),
            toFloatOr lit0 (reSearch matchGain line),
            toFloatOr lit707 (reSearch matchQ line) with
      | .ok freq, .ok gain, .ok q => .ok (some ⟨t, freq, q, gain⟩)
      | .error _, _, _ => .error ()
      | _, .error _, _ => .error ()
      | _, _, .error _ => .error ()

/-- A parsed profile: preamp plus the bands in file order. -/
structure Profile where
  preamp : PyFloat
  filters : List Filter
deriving DecidableEq, Repr

/-- One iteration of the `for line in content.split('\n')` loop of
`parse_profile`: strip, preamp branch, then filter branch. -/
def processLine (st : PyFloat × List Filter) (raw : Str) :
    Except Unit (PyFloat × List Filter) :=
  let line := pyStrip raw
  if isPrefixB ("preamp:".toList) (pyLower line) then
    match reSearch matchSigned line with
    | none => .ok st
    | some g =>
      match pyFloat g with
      | some v => .ok (v, st.2)
      | none => .error ()
  else
    match parseFilterLine line with
    | .ok none => .ok st
    | .ok (some f) => .ok (st.1, st.2 ++ [f])
    | .error e => .error e

/-- `parse_profile` applied to file content that was read successfully
(source lines 91–150).  An `.error` is an uncaught exception escaping the
function. -/
def parseProfileContent (content : Str) : Except Unit Profile :=
  ((splitLines content).foldlM processLine (lit0, [])).map (fun st => ⟨st.1, st.2⟩)

/-- The static manufacturer list of `parse_headphone_name`, in source order. -/
def manufacturers : List Str :=
  ["AKG", "Audio-Technica", "Audeze", "Bang & Olufsen", "Beats", "Beyerdynamic",
   "Bose", "Campfire Audio", "Dan Clark Audio", "Denon", "FiiO", "Final",
   "Focal", "Grado", "HarmonicDyne", "HIFIMAN", "JBL", "Koss", "Massdrop",
   "Meze", "Moondrop", "Philips", "Pioneer", "Sennheiser", "Shure", "Sony",
   "SteelSeries", "STAX", "Tin HiFi", "V-MODA", "ZMF", "64 Audio", "7Hz",
   "Anker", "Apple", "AFUL", "BLON", "CCA", "Dunu", "Empire Ears", "Etymotic",
   "FatFreq", "Hidizs", "HiBy", "iBasso", "JVC", "KZ", "Letshuoer", "Linsoul",
   "Noble Audio", "QKZ", "Samsung", "See Audio", "Simgot", "SoftEars",
   "Tangzu", "Thieaudio", "Tinhifi", "Tripowin", "TRN", "Truthear",
   "Unique Melody", "Westone", "Yanyin", "BGVP", "CCZ"].map String.toList

/-- Python `folder_name.split(' ', 1)`: the text before the first space and,
when a space exists, the text after it. -/
def splitFirstSpace : Str → Str × Option Str
  | [] => ([], none)
  | ' ' :: t => ([], some t)
  | c :: t =>
    let p := splitFirstSpace t
    (c :: p.1, p.2)

/-- The `for mfr in manufacturers` loop of `parse_headphone_name` with its
nested conditions and early return, followed by the split-on-first-space
fallback. -/
def parseNameGo (folder : Str) : List Str → Str × Str
  | [] =>
    match splitFirstSpace folder with
    | (a, some b) => (a, b)
    | (_, none) => (folder, [])
  | mfr :: rest =>
    if isPrefixB (pyLower mfr) (pyLower folder) then
      if isPrefixB (pyLower mfr ++ [' ']) (pyLower folder) || pyLower folder = pyLower mfr then
        let model := pyStrip (folder.drop mfr.length)
        (mfr, if model = [] then folder else model)
      else parseNameGo folder rest
    else parseNameGo folder rest

/-- `parse_headphone_name` (source lines 57–81). -/
def parse_headphone_name (folder : Str) : Str × Str :=
  parseNameGo folder manufacturers

/-- `detect_form_factor` (source lines 47–55). -/
def detect_form_factor (target : Str) : Str :=
  let tl := pyLower target
  if hasSub tl ("in-ear".toList) || hasSub tl ("in_ear".toList) || hasSub tl ("iem".toList) then
    "in-ear".toList
  else if hasSub tl ("earbud".toList) then "earbud".toList
  else "over-ear".toList

/-- `SOURCE_INFO`: folder name, priority (lower is better), normalized name;
in source (insertion) order. -/
def SOURCE_INFO : List (Str × ℕ × Str) :=
  [("oratory1990".toList, 1, "oratory1990".toList),
   ("crinacle".toList, 2, "crinacle".toList),
   ("Rtings".toList, 3, "rtings".toList),
   ("Innerfidelity".toList, 3, "innerfidelity".toList),
   ("Headphone.com Legacy".toList, 4, "headphone.com".toList)]

/-- One catalog entry (the `_priority` bookkeeping field is carried
separately as the `ℕ` component of a candidate). -/
structure Entry where
  id : Str
  manufacturer : Str
  model : Str
  source : Str
  formFactor : Str
  preamp : PyFloat
  filters : List Filter
deriving DecidableEq, Repr

/-- The dedup key `(manufacturer.lower(), model.lower())`. -/
abbrev Key := Str × Str

/-- The key under which an entry is deduplicated. -/
def entryKey (e : Entry) : Key := (pyLower e.manufacturer, pyLower e.model)

/-- A candidate produced by traversal: key, source priority, entry. -/
abbrev Cand := Key × ℕ × Entry

/-- The state of a headphone folder's expected
`"<folder> ParametricEQ.txt"` file. -/
inductive PeqFile where
  | absent
  | unreadable
  | content (s : Str)
deriving DecidableEq, Repr

/-- A headphone directory entry as seen by `os.listdir` of a target. -/
structure HeadphoneDir where
  name : Str
  isDir : Bool
  peq : PeqFile
deriving DecidableEq, Repr

/-- A target directory entry as seen by `os.listdir` of a source. -/
structure TargetDir where
  name : Str
  isDir : Bool
  headphones : List HeadphoneDir
deriving DecidableEq, Repr

/-- The input tree: the source folders present under the results root, with
their directory-listing order.  Listing order is part of the input, since
`os.listdir` order is platform-dependent. -/
structure FS where
  sources : List (Str × List TargetDir)
deriving DecidableEq, Repr

/-- `(results_path / source_folder).exists()` plus its targets. -/
def lookupSrc : List (Str × List TargetDir) → Str → Option (List TargetDir)
  | [], _ => none
  | (n, ts) :: rest, k => if n = k then some ts else lookupSrc rest k

/-- `parse_profile` including the read step (source lines 83–150): an
unreadable file is a caught exception yielding `None`; content is parsed,
and a parse exception escapes. -/
def parse_profile : PeqFile → Except Unit (Option Profile)
  | .absent => .ok none
  | .unreadable => .ok none
  | .content s => (parseProfileContent s).map some

/-- The per-headphone body of `main`'s innermost loop (source lines
177–206, up to the merge): skip non-directories, missing files, unreadable
files and empty-filter profiles, else build the keyed candidate entry. -/
def hpCandidate (source_name : Str) (priority : ℕ) (form_factor : Str)
    (hp : HeadphoneDir) : Except Unit (Option Cand) :=
  if !hp.isDir then .ok none
  else
    match hp.peq with
    | .absent => .ok none
    | pf =>
      match parse_profile pf with
      | .error e => .error e
      | .ok none => .ok none
      | .ok (some pr) =>
        if pr.filters = [] then .ok none
        else
          let mm := parse_headphone_name hp.name
          .ok (some ((pyLower mm.1, pyLower mm.2), priority,
            ⟨source_name ++ '/' :: hp.name, mm.1, mm.2, source_name, form_factor,
             pr.preamp, pr.filters⟩))

/-- The per-target loop of `main` (source lines 170–206): skip
non-directories, compute the form factor, and collect the candidate of each
headphone folder in listing order. -/
def targetCands (source_name : Str) (priority : ℕ) (t : TargetDir) :
    Except Unit (List Cand) :=
  if !t.isDir then .ok []
  else
    t.headphones.foldlM
      (fun acc hp =>
        (hpCandidate source_name priority (detect_form_factor t.name) hp).map
          (fun o => acc ++ o.toList))
      []

/-- The per-source loop of `main` (source lines 165–206): a missing source
folder is skipped, otherwise its targets are processed in listing order. -/
def sourceCands (fs : FS) (info : Str × ℕ × Str) : Except Unit (List Cand) :=
  match lookupSrc fs.sources info.1 with
  | none => .ok []
  | some targets =>
    targets.foldlM
      (fun acc t => (targetCands info.2.2 info.2.1 t).map (fun cs => acc ++ cs))
      []

/-- All candidate entries produced by the traversal of `main`, in the order
the Python loops visit them. -/
def candidates (fs : FS) : Except Unit (List Cand) :=
  SOURCE_INFO.foldlM
    (fun acc info => (sourceCands fs info).map (fun cs => acc ++ cs))
    []

/-- Lookup in the insertion-ordered accumulation map `all_entries`. -/
def lookupC : List (Key × ℕ × Entry) → Key → Option (ℕ × Entry)
  | [], _ => none
  | (k', v) :: rest, k => if k' = k then some v else lookupC rest k

/-- Assignment to an existing dict key: the value changes, the insertion
position does not. -/
def replaceC (m : List (Key × ℕ × Entry)) (k : Key) (v : ℕ × Entry) :
    List (Key × ℕ × Entry) :=
  m.map (fun kv => if kv.1 = k then (k, v) else kv)

/-- The merge rule of `main` (source lines 204–206): keep the new candidate
iff the key is new or its priority is strictly lower than the kept one's. -/
def mergeStep (m : List (Key × ℕ × Entry)) (c : Cand) : List (Key × ℕ × Entry) :=
  match lookupC m c.1 with
  | none => m ++ [(c.1, c.2)]
  | some (p', _) => if c.2.1 < p' then replaceC m c.1 c.2 else m

/-- The fully accumulated `all_entries` dict, as an insertion-ordered
association list. -/
def allEntriesList (cs : List Cand) : List (Key × ℕ × Entry) :=
  cs.foldl mergeStep []

/-- Lexicographic `≤` on strings, as Python compares them. -/
def strLe : Str → Str → Bool
  | [], _ => true
  | _ :: _, [] => false
  | a :: as, b :: bs => if a = b then strLe as bs else decide (a < b)

/-- Lexicographic `≤` on key pairs, as Python compares tuples. -/
def keyLe (k1 k2 : Key) : Bool :=
  if k1.1 = k2.1 then strLe k1.2 k2.2 else strLe k1.1 k2.1

/-- The sort key relation of `entries.sort(key=...)` (source line 215). -/
def entryLe (e1 e2 : Entry) : Bool := keyLe (entryKey e1) (entryKey e2)

/-- Stable insertion into a sorted list: the new element goes before the
first element it is `le`-below-or-equal to. -/
def insertSorted (le : α → α → Bool) (a : α) : List α → List α
  | [] => [a]
  | b :: bs => if le a b then a :: b :: bs else b :: insertSorted le a bs

/-- A stable sort, modelling Python's stable `list.sort`. -/
def pySort (le : α → α → Bool) : List α → List α
  | [] => []
  | a :: l => insertSorted le a (pySort le l)

/-- The emitted document (source lines 218–223); `generatedAt` is the
timestamp taken at emission time. -/
structure Database where
  version : ℕ
  generatedAt : Str
  entryCount : ℕ
  entries : List Entry
deriving DecidableEq, Repr

/-- `main` after argument checking (source lines 162–226): traverse,
merge, drop the priority field, sort, stamp metadata.  An `.error` is the
run aborting on an uncaught parse exception. -/
def buildDatabase (fs : FS) (now : Str) : Except Unit Database :=
  (candidates fs).map (fun cs =>
    let entries := pySort entryLe ((allEntriesList cs).map (fun kv => kv.2.2))
    ⟨1, now, entries.length, entries⟩)

/-! ## Theorems -/

/-- Claim C1: the claim states that no profile-file content, however
malformed its tokens, can raise an uncaught error during parsing, and that
the run always completes and emits the catalog.  This is false of the code:
on the line `Filter 1: ON PK Q .` the `Q` capture class `[\d.]+` captures
the string `.`, which `float()` rejects with an uncaught `ValueError`, so
`parse_profile` raises and the whole run aborts. -/
theorem C1_malformed_q_token_aborts_run :
    parseProfileContent ("Filter 1: ON PK Q .".toList) = .error () ∧
    buildDatabase
      ⟨[("oratory1990".toList,
         [⟨"over-ear".toList, true,
           [⟨"Sony X".toList, true, .content ("Filter 1: ON PK Q .".toList)⟩]⟩])]⟩
      ("2024-01-01T00:00:00+00:00".toList) = .error () := by
  exact ⟨rfl, rfl⟩

/-- Claim C9: on the same input tree (including its directory-listing
order) two runs of the builder differ only in the `generatedAt` timestamp:
version, entry count and the entries sequence (order and content) are
identical, whatever timestamps the two runs observe. -/
theorem C9_runs_identical_except_timestamp (fs : FS) (t1 t2 : Str) :
    (buildDatabase fs t1).map (fun db => (db.version, db.entryCount, db.entries)) =
    (buildDatabase fs t2).map (fun db => (db.version, db.entryCount, db.entries)) := by
  unfold buildDatabase
  cases candidates fs <;> rfl

/-- Claim C8: a line that does not contain the token `" ON "`
case-insensitively never produces a filter record, however well-formed the
rest of the line is. -/
theorem C8_no_on_token_no_filter (line : Str)
    (h : hasSubCI line (" ON ".toList) = false) :
    parseFilterLine line = .ok none := by
  have h' : hasSub (pyUpper line) (" ON ".toList) = false := h
  unfold parseFilterLine
  rw [h']
  simp

/-- Witness for C8 at the disabled-band line `Filter 1: OFF PK Fc 100 Hz`. -/
theorem C8_no_on_token_no_filter_witness :
    hasSubCI ("Filter 1: OFF PK Fc 100 Hz".toList) (" ON ".toList) = false ∧
    parseFilterLine ("Filter 1: OFF PK Fc 100 Hz".toList) = .ok none :=
  ⟨by decide, C8_no_on_token_no_filter _ (by decide)⟩

/-- The filter-type classification as the spec words it: the codes
PK, PEQ, LSC, LSB, LS, HSC, HSB, HS, LP, LPQ, HP, HPQ in that fixed order,
mapped to peaking / lowShelf / highShelf / lowPass / highPass. -/
def specFilterCodes : List (Str × FType) :=
  [("PK".toList, .peaking), ("PEQ".toList, .peaking),
   ("LSC".toList, .lowShelf), ("LSB".toList, .lowShelf), ("LS".toList, .lowShelf),
   ("HSC".toList, .highShelf), ("HSB".toList, .highShelf), ("HS".toList, .highShelf),
   ("LP".toList, .lowPass), ("LPQ".toList, .lowPass),
   ("HP".toList, .highPass), ("HPQ".toList, .highPass)]

/-- The spec-side classifier: the first code of `specFilterCodes` that
occurs surrounded by spaces in the uppercased line. -/
def specDetect (u : Str) : Option FType :=
  (specFilterCodes.find? (fun p => hasSub u (' ' :: (p.1 ++ [' '])))).map (fun p => p.2)

/-- The code's first-match-wins loop equals a `find?` over the mapping. -/
theorem detectGo_eq_find (u : Str) (l : List (Str × FType)) :
    detectGo u l = (l.find? (fun p => hasSub u (' ' :: (p.1 ++ [' '])))).map (fun p => p.2) := by
  induction l with
  | nil => rfl
  | cons p rest ih =>
    cases hc : hasSub u (' ' :: (p.1 ++ [' ']))
    · rw [List.find?_cons_of_neg _ (by simp [hc])]
      simpa [detectGo, hc] using ih
    · rw [List.find?_cons_of_pos _ (by simp [hc])]
      simp [detectGo, hc]

/-- Claim C4: the type of an eligible filter line is decided by the fixed
ordered code list, a code matching only surrounded by spaces in the
uppercased line, first match winning; a line matching no code produces no
filter, and a produced filter carries the type of the first matching
code. -/
theorem C4_filter_type_classification (line : Str) :
    detectFilterType (pyUpper line) = specDetect (pyUpper line) ∧
    (specDetect (pyUpper line) = none → parseFilterLine line = .ok none) ∧
    (∀ f, parseFilterLine line = .ok (some f) →
      specDetect (pyUpper line) = some f.type) := by
  have hequiv : detectFilterType (pyUpper line) = specDetect (pyUpper line) := by
    have h1 : FILTER_TYPES = specFilterCodes := rfl
    unfold detectFilterType specDetect
    rw [h1, detectGo_eq_find]
  refine ⟨hequiv, ?_, ?_⟩
  · intro hn
    rw [← hequiv] at hn
    unfold parseFilterLine
    rw [hn]
    split
    · rfl
    split
    · rfl
    · rfl
  · intro f h
    unfold parseFilterLine at h
    split at h
    · exact absurd h (by simp)
    split at h
    · exact absurd h (by simp)
    split at h
    · exact absurd h (by simp)
    · rename_i t heq
      split at h
      · simp only [Except.ok.injEq, Option.some.injEq] at h
        subst h
        rw [← hequiv, heq]
      · exact absurd h (by simp)
      · exact absurd h (by simp)
      · exact absurd h (by simp)

/-- Witness for C4 at the line `Filter 1: ON PK Fc 105 Hz Gain -3.5 dB Q 0.70`. -/
theorem C4_filter_type_classification_witness :
    parseFilterLine ("Filter 1: ON PK Fc 105 Hz Gain -3.5 dB Q 0.70".toList) =
      .ok (some ⟨.peaking, ⟨false, 105, 0⟩, ⟨false, 70, 2⟩, ⟨true, 35, 1⟩⟩) ∧
    specDetect (pyUpper ("Filter 1: ON PK Fc 105 Hz Gain -3.5 dB Q 0.70".toList)) =
      some FType.peaking :=
  ⟨rfl,
   (C4_filter_type_classification
      ("Filter 1: ON PK Fc 105 Hz Gain -3.5 dB Q 0.70".toList)).2.2
     ⟨.peaking, ⟨false, 105, 0⟩, ⟨false, 70, 2⟩, ⟨true, 35, 1⟩⟩ rfl⟩

/-- Unfolding step for the substring test. -/
theorem hasSub_cons (c : Char) (t sub : Str) :
    hasSub (c :: t) sub = (isPrefixB sub (c :: t) || hasSub t sub) := rfl

/-- A case-insensitive character test forces the uppercased character. -/
theorem toUpper_eq_of_eqOr {c x y z : Char} (h : (c = x || c = y) = true)
    (hx : Char.toUpper x = z) (hy : Char.toUpper y = z) : Char.toUpper c = z := by
  rcases Bool.or_eq_true_iff.mp h with h | h
  · have := of_decide_eq_true h; subst this; exact hx
  · have := of_decide_eq_true h; subst this; exact hy

/-- If the uppercased line nowhere contains `FC`, the `Fc` regex cannot
match anywhere. -/
theorem reSearch_matchFc_eq_none (l : Str)
    (h : hasSub (pyUpper l) ("FC".toList) = false) :
    reSearch matchFc l = none := by
  induction l with
  | nil => rfl
  | cons c t ih =>
    have hup : pyUpper (c :: t) = Char.toUpper c :: pyUpper t := rfl
    rw [hup, hasSub_cons, Bool.or_eq_false_iff] at h
    obtain ⟨h1, h2⟩ := h
    have hm : matchFc (c :: t) = none := by
      cases t with
      | nil => rfl
      | cons b r =>
        cases hcb : ((c = 'F' || c = 'f') && (b = 'C' || b = 'c'))
        · simp [matchFc, hcb]
        · exfalso
          obtain ⟨hcf, hbc⟩ := Bool.and_eq_true_iff.mp hcb
          have hcF : Char.toUpper c = 'F' := toUpper_eq_of_eqOr hcf rfl rfl
          have hbC : Char.toUpper b = 'C' := toUpper_eq_of_eqOr hbc rfl rfl
          have hpre : isPrefixB ("FC".toList) (Char.toUpper c :: pyUpper (b :: r)) = true := by
            have hupb : pyUpper (b :: r) = Char.toUpper b :: pyUpper r := rfl
            rw [hcF, hupb, hbC]
            simp [isPrefixB]
          rw [hpre] at h1
          exact Bool.noConfusion h1
    simp [reSearch, hm, ih h2]

/-- If the uppercased line nowhere contains `GAIN`, the `Gain` regex
cannot match anywhere. -/
theorem reSearch_matchGain_eq_none (l : Str)
    (h : hasSub (pyUpper l) ("GAIN".toList) = false) :
    reSearch matchGain l = none := by
  induction l with
  | nil => rfl
  | cons c t ih =>
    have hup : pyUpper (c :: t) = Char.toUpper c :: pyUpper t := rfl
    rw [hup, hasSub_cons, Bool.or_eq_false_iff] at h
    obtain ⟨h1, h2⟩ := h
    have hm : matchGain (c :: t) = none := by
      match t with
      | [] => rfl
      | [b] => rfl
      | [b, c2] => rfl
      | b :: c2 :: d :: r =>
        cases hcb : ((c = 'G' || c = 'g') && (b = 'A' || b = 'a') &&
            (c2 = 'I' || c2 = 'i') && (d = 'N' || d = 'n'))
        · simp [matchGain, hcb]
        · exfalso
          obtain ⟨h3, hn⟩ := Bool.and_eq_true_iff.mp hcb
          obtain ⟨h4, hi⟩ := Bool.and_eq_true_iff.mp h3
          obtain ⟨hg, ha⟩ := Bool.and_eq_true_iff.mp h4
          have hG : Char.toUpper c = 'G' := toUpper_eq_of_eqOr hg rfl rfl
          have hA : Char.toUpper b = 'A' := toUpper_eq_of_eqOr ha rfl rfl
          have hI : Char.toUpper c2 = 'I' := toUpper_eq_of_eqOr hi rfl rfl
          have hN : Char.toUpper d = 'N' := toUpper_eq_of_eqOr hn rfl rfl
          have hpre : isPrefixB ("GAIN".toList)
              (Char.toUpper c :: pyUpper (b :: c2 :: d :: r)) = true := by
            have hupb : pyUpper (b :: c2 :: d :: r) =
                Char.toUpper b :: Char.toUpper c2 :: Char.toUpper d :: pyUpper r := rfl
            rw [hG, hupb, hA, hI, hN]
            simp [isPrefixB]
          rw [hpre] at h1
          exact Bool.noConfusion h1
    simp [reSearch, hm, ih h2]

/-- If the uppercased line nowhere contains `Q`, the `Q` regex cannot
match anywhere. -/
theorem reSearch_matchQ_eq_none (l : Str)
    (h : hasSub (pyUpper l) ("Q".toList) = false) :
    reSearch matchQ l = none := by
  induction l with
  | nil => rfl
  | cons c t ih =>
    have hup : pyUpper (c :: t) = Char.toUpper c :: pyUpper t := rfl
    rw [hup, hasSub_cons, Bool.or_eq_false_iff] at h
    obtain ⟨h1, h2⟩ := h
    have hm : matchQ (c :: t) = none := by
      cases t with
      | nil => rfl
      | cons b r =>
        cases hcb : (isSpaceChar c && (b = 'Q' || b = 'q'))
        · simp [matchQ, hcb]
        · exfalso
          obtain ⟨_, hq⟩ := Bool.and_eq_true_iff.mp hcb
          have hQ : Char.toUpper b = 'Q' := toUpper_eq_of_eqOr hq rfl rfl
          have hupb : pyUpper (b :: r) = Char.toUpper b :: pyUpper r := rfl
          have hpre : isPrefixB ("Q".toList) (pyUpper (b :: r)) = true := by
            rw [hupb, hQ]
            simp [isPrefixB]
          rw [hupb, hasSub_cons, ← hupb, Bool.or_eq_false_iff, hpre] at h2
          exact Bool.noConfusion h2.1
    simp [reSearch, hm, ih h2]

/-- Claim C5: on a line that does produce a filter, each of the three
numeric fields is defaulted independently when its token is absent from
the line: no `Fc` token gives frequency 1000.0, no `Gain` token gives gain
0.0, and no `Q` token gives Q 0.707. -/
theorem C5_independent_defaults (line : Str) (f : Filter)
    (h : parseFilterLine line = .ok (some f)) :
    (hasSubCI line ("Fc".toList) = false → f.freq = lit1000 ∧ f.freq.toRat = 1000) ∧
    (hasSubCI line ("Gain".toList) = false → f.gain = lit0 ∧ f.gain.toRat = 0) ∧
    (hasSubCI line ("Q".toList) = false → f.q = lit707 ∧ f.q.toRat = 707 / 1000) := by
  unfold parseFilterLine at h
  split at h
  · exact absurd h (by simp)
  split at h
  · exact absurd h (by simp)
  split at h
  · exact absurd h (by simp)
  · split at h
    · rename_i freq gain q heqf heqg heqq
      simp only [Except.ok.injEq, Option.some.injEq] at h
      subst h
      refine ⟨fun hfc => ?_, fun hg => ?_, fun hq => ?_⟩
      · have hn : reSearch matchFc line = none := reSearch_matchFc_eq_none line hfc
        rw [hn] at heqf
        simp only [toFloatOr, Except.ok.injEq] at heqf
        subst heqf
        exact ⟨rfl, by norm_num [lit1000, PyFloat.toRat]⟩
      · have hn : reSearch matchGain line = none := reSearch_matchGain_eq_none line hg
        rw [hn] at heqg
        simp only [toFloatOr, Except.ok.injEq] at heqg
        subst heqg
        exact ⟨rfl, by norm_num [lit0, PyFloat.toRat]⟩
      · have hn : reSearch matchQ line = none := reSearch_matchQ_eq_none line hq
        rw [hn] at heqq
        simp only [toFloatOr, Except.ok.injEq] at heqq
        subst heqq
        exact ⟨rfl, by norm_num [lit707, PyFloat.toRat]⟩
    · exact absurd h (by simp)
    · exact absurd h (by simp)
    · exact absurd h (by simp)

/-- Witness for C5 at the line `Filter 1: ON PK 100`, which carries no
`Fc`, `Gain` or `Q` token. -/
theorem C5_independent_defaults_witness :
    parseFilterLine ("Filter 1: ON PK 100".toList) =
      .ok (some ⟨.peaking, lit1000, lit707, lit0⟩) ∧
    hasSubCI ("Filter 1: ON PK 100".toList) ("Fc".toList) = false ∧
    hasSubCI ("Filter 1: ON PK 100".toList) ("Gain".toList) = false ∧
    hasSubCI ("Filter 1: ON PK 100".toList) ("Q".toList) = false ∧
    (lit1000.toRat = 1000 ∧ lit0.toRat = 0 ∧ lit707.toRat = 707 / 1000) := by
  have h := C5_independent_defaults ("Filter 1: ON PK 100".toList)
    ⟨.peaking, lit1000, lit707, lit0⟩ rfl
  exact ⟨rfl, by decide, by decide, by decide,
    (h.1 (by decide)).2, (h.2.1 (by decide)).2, (h.2.2 (by decide)).2⟩

/-- Characters captured by the unsigned-number matcher are digits or dots. -/
theorem matchUnsigned_chars (l g : Str) (h : matchUnsigned l = some g) :
    ∀ c ∈ g, c.isDigit ∨ c = '.' := by
  unfold matchUnsigned at h
  dsimp only at h
  by_cases hds : l.takeWhile (fun c => c.isDigit) = []
  · rw [if_pos hds] at h
    exact absurd h (by simp)
  · rw [if_neg hds] at h
    split at h
    · simp only [Option.some.injEq] at h
      subst h
      intro c hc
      rcases List.mem_append.mp hc with hc | hc
      · exact Or.inl (List.mem_takeWhile_imp hc)
      · rcases List.mem_cons.mp hc with hc | hc
        · exact Or.inr hc
        · exact Or.inl (List.mem_takeWhile_imp hc)
    · simp only [Option.some.injEq] at h
      subst h
      intro c hc
      exact Or.inl (List.mem_takeWhile_imp hc)

/-- Characters captured by the `Fc` matcher are digits or dots. -/
theorem matchFc_chars (l g : Str) (h : matchFc l = some g) :
    ∀ c ∈ g, c.isDigit ∨ c = '.' := by
  unfold matchFc at h
  split at h
  · split at h
    · dsimp only at h
      split at h
      · exact absurd h (by simp)
      · exact matchUnsigned_chars _ _ h
    · exact absurd h (by simp)
  · exact absurd h (by simp)

/-- Characters captured by the `Q` matcher are digits or dots. -/
theorem matchQ_chars (l g : Str) (h : matchQ l = some g) :
    ∀ c ∈ g, c.isDigit ∨ c = '.' := by
  unfold matchQ at h
  split at h
  · split at h
    · dsimp only at h
      split at h
      · exact absurd h (by simp)
      · split at h
        · exact absurd h (by simp)
        · simp only [Option.some.injEq] at h
          subst h
          intro c hc
          have := List.mem_takeWhile_imp hc
          rcases Bool.or_eq_true_iff.mp this with h1 | h1
          · exact Or.inl h1
          · exact Or.inr (of_decide_eq_true h1)
    · exact absurd h (by simp)
  · exact absurd h (by simp)

/-- A leftmost search only returns what the matcher returns on some
suffix. -/
theorem reSearch_exists (m : Str → Option Str) (l g : Str)
    (h : reSearch m l = some g) : ∃ t, m t = some g := by
  induction l with
  | nil => exact ⟨[], h⟩
  | cons c t ih =>
    unfold reSearch at h
    split at h
    · rename_i heq
      exact ⟨c :: t, heq.trans h⟩
    · exact ih h

/-- A float parsed from a string free of minus signs is nonnegative, both
as stored (no sign flag) and in value. -/
theorem pyFloat_nonneg (g : Str) (v : PyFloat)
    (hchars : ∀ c ∈ g, c.isDigit ∨ c = '.') (h : pyFloat g = some v) :
    v.neg = false ∧ 0 ≤ v.toRat := by
  have hnn : pyFloatNN g = some v := by
    unfold pyFloat at h
    split at h
    · rename_i r
      exact absurd (hchars '-' (List.mem_cons_self _ _)) (by decide)
    · exact h
  have hneg : v.neg = false := by
    unfold pyFloatNN at hnn
    dsimp only at hnn
    split at hnn
    · split at hnn
      · exact absurd hnn (by simp)
      · simp only [Option.some.injEq] at hnn
        subst hnn
        rfl
    · split at hnn
      · simp only [Option.some.injEq] at hnn
        subst hnn
        rfl
      · exact absurd hnn (by simp)
    · exact absurd hnn (by simp)
  refine ⟨hneg, ?_⟩
  unfold PyFloat.toRat
  rw [hneg]
  simp only [Bool.false_eq_true, if_false, one_mul]
  positivity

/-- Claim C10: every filter record the parser appends has nonnegative
frequency and nonnegative Q, because the `Fc` and `Q` capture patterns
cannot capture a minus sign; only gain (and preamp) can be negative. -/
theorem C10_freq_q_nonneg (line : Str) (f : Filter)
    (h : parseFilterLine line = .ok (some f)) :
    (0 ≤ f.freq.toRat ∧ f.freq.neg = false) ∧
    (0 ≤ f.q.toRat ∧ f.q.neg = false) := by
  unfold parseFilterLine at h
  split at h
  · exact absurd h (by simp)
  split at h
  · exact absurd h (by simp)
  split at h
  · exact absurd h (by simp)
  · split at h
    · rename_i freq gain q heqf heqg heqq
      simp only [Except.ok.injEq, Option.some.injEq] at h
      subst h
      constructor
      · cases hs : reSearch matchFc line with
        | none =>
          rw [hs] at heqf
          simp only [toFloatOr, Except.ok.injEq] at heqf
          subst heqf
          exact ⟨by norm_num [lit1000, PyFloat.toRat], rfl⟩
        | some g =>
          rw [hs] at heqf
          have hg : pyFloat g = some freq := by
            simp only [toFloatOr] at heqf
            split at heqf
            · rename_i v hv
              simp only [Except.ok.injEq] at heqf
              subst heqf
              exact hv
            · exact absurd heqf (by simp)
          obtain ⟨t, ht⟩ := reSearch_exists _ _ _ hs
          have hch := matchFc_chars t g ht
          have := pyFloat_nonneg g freq hch hg
          exact ⟨this.2, this.1⟩
      · cases hs : reSearch matchQ line with
        | none =>
          rw [hs] at heqq
          simp only [toFloatOr, Except.ok.injEq] at heqq
          subst heqq
          exact ⟨by norm_num [lit707, PyFloat.toRat], rfl⟩
        | some g =>
          rw [hs] at heqq
          have hg : pyFloat g = some q := by
            simp only [toFloatOr] at heqq
            split at heqq
            · rename_i v hv
              simp only [Except.ok.injEq] at heqq
              subst heqq
              exact hv
            · exact absurd heqq (by simp)
          obtain ⟨t, ht⟩ := reSearch_exists _ _ _ hs
          have hch := matchQ_chars t g ht
          have := pyFloat_nonneg g q hch hg
          exact ⟨this.2, this.1⟩
    · exact absurd h (by simp)
    · exact absurd h (by simp)
    · exact absurd h (by simp)

/-- Witness for C10 at the line `Filter 2: ON HSC Fc 8000 Hz Gain 2.1 dB Q 0.5`. -/
theorem C10_freq_q_nonneg_witness :
    parseFilterLine ("Filter 2: ON HSC Fc 8000 Hz Gain 2.1 dB Q 0.5".toList) =
      .ok (some ⟨.highShelf, ⟨false, 8000, 0⟩, ⟨false, 5, 1⟩, ⟨false, 21, 1⟩⟩) ∧
    (0 ≤ (⟨false, 8000, 0⟩ : PyFloat).toRat ∧
     0 ≤ (⟨false, 5, 1⟩ : PyFloat).toRat) := by
  have h := C10_freq_q_nonneg ("Filter 2: ON HSC Fc 8000 Hz Gain 2.1 dB Q 0.5".toList)
    ⟨.highShelf, ⟨false, 8000, 0⟩, ⟨false, 5, 1⟩, ⟨false, 21, 1⟩⟩ rfl
  exact ⟨rfl, h.1.1, h.2.1⟩

/-- The spec-side manufacturer match: a known manufacturer matches only as
a case-insensitive prefix followed by a space, or equal to the whole
folder name. -/
def specMfrMatches (folder mfr : Str) : Bool :=
  isPrefixB (pyLower mfr ++ [' ']) (pyLower folder) || pyLower folder = pyLower mfr

/-- The spec-side name classifier: first matching manufacturer in list
order wins, the trimmed remainder is the model (or the full folder name if
nothing remains); otherwise split on the first space, or make the whole
name the manufacturer with an empty model. -/
def specParseName (folder : Str) : Str × Str :=
  match manufacturers.find? (specMfrMatches folder) with
  | some mfr =>
    let model := pyStrip (folder.drop mfr.length)
    (mfr, if model = [] then folder else model)
  | none =>
    match splitFirstSpace folder with
    | (a, some b) => (a, b)
    | (_, none) => (folder, [])

/-- A prefix test on a longer pattern implies one on its first part. -/
theorem isPrefixB_append_left (a b s : Str) (h : isPrefixB (a ++ b) s = true) :
    isPrefixB a s = true := by
  induction a generalizing s with
  | nil => rfl
  | cons p ps ih =>
    cases s with
    | nil => exact absurd h (by simp [isPrefixB])
    | cons c cs =>
      obtain ⟨h1, h2⟩ := Bool.and_eq_true_iff.mp h
      show (decide (p = c) && isPrefixB ps cs) = true
      rw [h1, ih cs h2]
      rfl

/-- Every string is a prefix of itself. -/
theorem isPrefixB_refl (a : Str) : isPrefixB a a = true := by
  induction a with
  | nil => rfl
  | cons c cs ih =>
    show (decide (c = c) && isPrefixB cs cs) = true
    rw [ih]
    simp

/-- The spec-side match condition implies the code's outer prefix check. -/
theorem specMfrMatches_imp_outer (folder mfr : Str)
    (h : specMfrMatches folder mfr = true) :
    isPrefixB (pyLower mfr) (pyLower folder) = true := by
  rcases Bool.or_eq_true_iff.mp h with h | h
  · exact isPrefixB_append_left _ _ _ h
  · rw [of_decide_eq_true h]
    exact isPrefixB_refl _

/-- The code's nested-condition loop equals a single `find?` over the
spec-side match condition. -/
theorem parseNameGo_eq_find (folder : Str) (l : List Str) :
    parseNameGo folder l =
      (match l.find? (specMfrMatches folder) with
       | some mfr =>
         let model := pyStrip (folder.drop mfr.length)
         (mfr, if model = [] then folder else model)
       | none =>
         match splitFirstSpace folder with
         | (a, some b) => (a, b)
         | (_, none) => (folder, [])) := by
  induction l with
  | nil => rfl
  | cons mfr rest ih =>
    have hcond : (isPrefixB (pyLower mfr ++ [' ']) (pyLower folder) ||
        pyLower folder = pyLower mfr) = specMfrMatches folder mfr := rfl
    cases hs : specMfrMatches folder mfr
    · rw [List.find?_cons_of_neg _ (by simp [hs])]
      unfold parseNameGo
      cases ho : isPrefixB (pyLower mfr) (pyLower folder)
      · simp only [ho, Bool.false_eq_true, if_false]
        exact ih
      · simp only [ho, if_true, hcond, hs, Bool.false_eq_true, if_false]
        exact ih
    · rw [List.find?_cons_of_pos _ (by simp [hs])]
      unfold parseNameGo
      have ho := specMfrMatches_imp_outer folder mfr hs
      simp only [ho, if_true, hcond, hs]

/-- Claim C6: the name classifier behaves as specified — a known
manufacturer matches only as a case-insensitive prefix followed by a space
or as the whole name, first match in list order wins and the trimmed
remainder (or the full name) is the model; with no match the name splits
on the first space, a space-free name becoming the manufacturer with empty
model — and the two worked examples hold. -/
theorem C6_name_classification (folder : Str) :
    parse_headphone_name folder = specParseName folder ∧
    parse_headphone_name ("HIFIMAN HE400se".toList) =
      ("HIFIMAN".toList, "HE400se".toList) ∧
    parse_headphone_name ("Unknown Thing Model X".toList) =
      ("Unknown".toList, "Thing Model X".toList) ∧
    parse_headphone_name ("AKGSomething".toList) = ("AKGSomething".toList, []) :=
  ⟨parseNameGo_eq_find folder manufacturers, by decide, by decide, by decide⟩

/-- The spec-side selection rule for one key: keep the current entry
unless the new one's priority is strictly lower; with no current entry
keep the new one.  Folded over the candidates at a key in traversal order,
it names the first-encountered candidate of minimal priority. -/
def pickStep (acc : Option (ℕ × Entry)) (pe : ℕ × Entry) : Option (ℕ × Entry) :=
  match acc with
  | none => some pe
  | some pe' => if pe.1 < pe'.1 then some pe else some pe'

/-- The spec-side winner among all candidates for one key, in traversal
order. -/
def specPick (l : List (ℕ × Entry)) : Option (ℕ × Entry) :=
  l.foldl pickStep none

/-- Lookup distributes over append of accumulation maps. -/
theorem lookupC_append (m1 m2 : List (Key × ℕ × Entry)) (k : Key) :
    lookupC (m1 ++ m2) k =
      (match lookupC m1 k with
       | some v => some v
       | none => lookupC m2 k) := by
  induction m1 with
  | nil => rfl
  | cons kv rest ih =>
    by_cases hk : kv.1 = k
    · simp [lookupC, hk]
    · simp [lookupC, hk, ih]

/-- Replacing at one key does not change lookups at other keys. -/
theorem lookupC_replaceC_ne (m : List (Key × ℕ × Entry)) (k0 k : Key)
    (v : ℕ × Entry) (h : k0 ≠ k) :
    lookupC (replaceC m k0 v) k = lookupC m k := by
  induction m with
  | nil => rfl
  | cons kv rest ih =>
    obtain ⟨k1, v1⟩ := kv
    simp only [replaceC, List.map_cons]
    by_cases hk : k1 = k0
    · rw [if_pos hk]
      have hk1 : ¬(k1 = k) := by rw [hk]; exact h
      simp only [lookupC, if_neg h, if_neg hk1]
      exact ih
    · rw [if_neg hk]
      by_cases hk2 : k1 = k
      · simp only [lookupC, if_pos hk2]
      · simp only [lookupC, if_neg hk2]
        exact ih

/-- Replacing at a present key changes its lookup to the new value. -/
theorem lookupC_replaceC_eq (m : List (Key × ℕ × Entry)) (k : Key)
    (v w : ℕ × Entry) (h : lookupC m k = some w) :
    lookupC (replaceC m k v) k = some v := by
  induction m with
  | nil => exact absurd h (by simp [lookupC])
  | cons kv rest ih =>
    obtain ⟨k1, v1⟩ := kv
    simp only [replaceC, List.map_cons]
    by_cases hk : k1 = k
    · rw [if_pos hk]
      simp [lookupC]
    · rw [if_neg hk]
      simp only [lookupC, if_neg hk] at h ⊢
      exact ih h

/-- A merge step leaves lookups at other keys unchanged. -/
theorem mergeStep_lookup_ne (m : List (Key × ℕ × Entry)) (c : Cand) (k : Key)
    (h : c.1 ≠ k) : lookupC (mergeStep m c) k = lookupC m k := by
  unfold mergeStep
  cases hl : lookupC m c.1 with
  | none =>
    rw [lookupC_append]
    cases hm : lookupC m k with
    | none => simp [lookupC, h]
    | some v => rfl
  | some pv =>
    obtain ⟨p', e'⟩ := pv
    by_cases hp : c.2.1 < p'
    · simp only [if_pos hp]
      exact lookupC_replaceC_ne m c.1 k c.2 h
    · simp only [if_neg hp]

/-- A merge step acts on the candidate's own key exactly as the spec-side
selection rule. -/
theorem mergeStep_lookup_eq (m : List (Key × ℕ × Entry)) (c : Cand) :
    lookupC (mergeStep m c) c.1 = pickStep (lookupC m c.1) c.2 := by
  unfold mergeStep
  cases hl : lookupC m c.1 with
  | none =>
    rw [lookupC_append, hl]
    simp [lookupC, pickStep]
  | some pv =>
    obtain ⟨p', e'⟩ := pv
    by_cases hp : c.2.1 < p'
    · simp only [if_pos hp, pickStep, hp, if_true]
      exact lookupC_replaceC_eq m c.1 c.2 (p', e') hl
    · simp only [if_neg hp, pickStep, hp, if_false, hl]

/-- The accumulated map's value at a key is the spec-side fold over the
candidates for that key, in traversal order, started from the map's
current value. -/
theorem foldl_mergeStep_lookup (cs : List Cand) (m : List (Key × ℕ × Entry)) (k : Key) :
    lookupC (cs.foldl mergeStep m) k =
      ((cs.filter (fun c => c.1 = k)).map (fun c => c.2)).foldl pickStep (lookupC m k) := by
  induction cs generalizing m with
  | nil => rfl
  | cons c rest ih =>
    rw [List.foldl_cons, ih]
    by_cases hk : c.1 = k
    · rw [List.filter_cons_of_pos (by simp [hk]), List.map_cons, List.foldl_cons]
      subst hk
      rw [mergeStep_lookup_eq]
    · rw [List.filter_cons_of_neg (by simp [hk]), mergeStep_lookup_ne m c k hk]

/-- Claim C2: an entry is replaced only when the new priority is strictly
lower, equal priority keeping the first-encountered entry, so the kept
entry for every key is the first-encountered candidate of minimal
priority; in particular, when exactly two candidates with different
priorities share a key, the lower-priority one is retained whichever was
visited first. -/
theorem C2_priority_merge (cs : List Cand) (k : Key) :
    lookupC (allEntriesList cs) k =
      specPick ((cs.filter (fun c => c.1 = k)).map (fun c => c.2)) ∧
    (∀ p1 e1 p2 e2, (cs.filter (fun c => c.1 = k)).map (fun c => c.2) = [(p1, e1), (p2, e2)] →
      p1 < p2 → lookupC (allEntriesList cs) k = some (p1, e1)) ∧
    (∀ p1 e1 p2 e2, (cs.filter (fun c => c.1 = k)).map (fun c => c.2) = [(p1, e1), (p2, e2)] →
      p2 < p1 → lookupC (allEntriesList cs) k = some (p2, e2)) := by
  have hchar : lookupC (allEntriesList cs) k =
      specPick ((cs.filter (fun c => c.1 = k)).map (fun c => c.2)) :=
    foldl_mergeStep_lookup cs [] k
  refine ⟨hchar, ?_, ?_⟩
  · intro p1 e1 p2 e2 heq hlt
    rw [hchar, heq]
    simp [specPick, pickStep, Nat.not_lt_of_lt hlt]
  · intro p1 e1 p2 e2 heq hlt
    rw [hchar, heq]
    simp [specPick, pickStep, hlt]

/-- Witness for C2: two candidates for the same key with priorities 3 and
1 in visit order; the priority-1 entry wins. -/
theorem C2_priority_merge_witness :
    lookupC (allEntriesList
      [(("sony".toList, "x".toList), 3,
        ⟨"rtings/Sony X".toList, "Sony".toList, "X".toList, "rtings".toList,
         "over-ear".toList, lit0, []⟩),
       (("sony".toList, "x".toList), 1,
        ⟨"oratory1990/Sony X".toList, "Sony".toList, "X".toList, "oratory1990".toList,
         "over-ear".toList, lit0, []⟩)])
      ("sony".toList, "x".toList) =
      some (1, ⟨"oratory1990/Sony X".toList, "Sony".toList, "X".toList,
        "oratory1990".toList, "over-ear".toList, lit0, []⟩) :=
  (C2_priority_merge _ _).2.2 3
    ⟨"rtings/Sony X".toList, "Sony".toList, "X".toList, "rtings".toList,
     "over-ear".toList, lit0, []⟩ 1
    ⟨"oratory1990/Sony X".toList, "Sony".toList, "X".toList, "oratory1990".toList,
     "over-ear".toList, lit0, []⟩ (by decide) (by decide)

/-- Claim C7: a headphone whose profile file parses to zero filters
contributes nothing, exactly like a missing or unreadable file: in all
three states the per-headphone step yields no candidate entry. -/
theorem C7_empty_profile_like_missing (sn : Str) (pri : ℕ) (ff : Str)
    (hp : HeadphoneDir) (c : Str) (pr : Profile)
    (hpeq : hp.peq = .content c)
    (hparse : parseProfileContent c = .ok pr)
    (hempty : pr.filters = []) :
    hpCandidate sn pri ff hp = .ok none ∧
    hpCandidate sn pri ff ⟨hp.name, hp.isDir, .absent⟩ = .ok none ∧
    hpCandidate sn pri ff ⟨hp.name, hp.isDir, .unreadable⟩ = .ok none := by
  refine ⟨?_, ?_, ?_⟩
  · cases hd : hp.isDir
    · simp [hpCandidate, hd]
    · simp [hpCandidate, hd, hpeq, parse_profile, hparse, Except.map, hempty]
  · cases hd : hp.isDir <;> simp [hpCandidate, hd]
  · cases hd : hp.isDir <;> simp [hpCandidate, hd, parse_profile]

/-- Witness for C7 at a profile consisting only of a preamp line, parsed
successfully to zero filters. -/
theorem C7_empty_profile_like_missing_witness :
    (⟨"Sony X".toList, true, .content ("Preamp: -2.0 dB".toList)⟩ : HeadphoneDir).peq =
      .content ("Preamp: -2.0 dB".toList) ∧
    parseProfileContent ("Preamp: -2.0 dB".toList) = .ok ⟨⟨true, 20, 1⟩, []⟩ ∧
    hpCandidate ("oratory1990".toList) 1 ("over-ear".toList)
      ⟨"Sony X".toList, true, .content ("Preamp: -2.0 dB".toList)⟩ = .ok none ∧
    hpCandidate ("oratory1990".toList) 1 ("over-ear".toList)
      ⟨"Sony X".toList, true, .absent⟩ = .ok none ∧
    hpCandidate ("oratory1990".toList) 1 ("over-ear".toList)
      ⟨"Sony X".toList, true, .unreadable⟩ = .ok none := by
  have h := C7_empty_profile_like_missing ("oratory1990".toList) 1 ("over-ear".toList)
    ⟨"Sony X".toList, true, .content ("Preamp: -2.0 dB".toList)⟩
    ("Preamp: -2.0 dB".toList) ⟨⟨true, 20, 1⟩, []⟩ rfl rfl rfl
  exact ⟨rfl, rfl, h.1, h.2.1, h.2.2⟩

/-- The string order is total. -/
theorem strLe_total : ∀ a b : Str, strLe a b = true ∨ strLe b a = true := by
  intro a
  induction a with
  | nil => intro b; left; rfl
  | cons x xs ih =>
    intro b
    cases b with
    | nil => right; rfl
    | cons y ys =>
      by_cases hxy : x = y
      · subst hxy
        rcases ih ys with h | h
        · left
          show (if x = x then strLe xs ys else decide (x < x)) = true
          rw [if_pos rfl]; exact h
        · right
          show (if x = x then strLe ys xs else decide (x < x)) = true
          rw [if_pos rfl]; exact h
      · rcases lt_trichotomy x y with h | h | h
        · left
          show (if x = y then strLe xs ys else decide (x < y)) = true
          rw [if_neg hxy]; exact decide_eq_true h
        · exact absurd h hxy
        · right
          show (if y = x then strLe ys xs else decide (y < x)) = true
          rw [if_neg (fun hh => hxy hh.symm)]; exact decide_eq_true h

/-- The string order is transitive. -/
theorem strLe_trans : ∀ a b c : Str, strLe a b = true → strLe b c = true →
    strLe a c = true := by
  intro a
  induction a with
  | nil => intro b c _ _; rfl
  | cons x xs ih =>
    intro b c hab hbc
    cases b with
    | nil => exact absurd hab (by simp [strLe])
    | cons y ys =>
      cases c with
      | nil => exact absurd hbc (by simp [strLe])
      | cons z zs =>
        have hab' : (if x = y then strLe xs ys else decide (x < y)) = true := hab
        have hbc' : (if y = z then strLe ys zs else decide (y < z)) = true := hbc
        show (if x = z then strLe xs zs else decide (x < z)) = true
        by_cases hxy : x = y
        · rw [if_pos hxy] at hab'
          by_cases hyz : y = z
          · rw [if_pos hyz] at hbc'
            rw [if_pos (hxy.trans hyz)]
            exact ih ys zs hab' hbc'
          · rw [if_neg hyz] at hbc'
            have hxz : x ≠ z := by rw [hxy]; exact hyz
            rw [if_neg hxz, hxy]
            exact hbc'
        · rw [if_neg hxy] at hab'
          have hxy' : x < y := of_decide_eq_true hab'
          by_cases hyz : y = z
          · have hxz : x ≠ z := by rw [← hyz]; exact hxy
            rw [if_neg hxz, ← hyz]
            exact hab'
          · rw [if_neg hyz] at hbc'
            have hyz' : y < z := of_decide_eq_true hbc'
            have hxz' : x < z := lt_trans hxy' hyz'
            rw [if_neg (ne_of_lt hxz')]
            exact decide_eq_true hxz'

/-- The string order is antisymmetric. -/
theorem strLe_antisymm : ∀ a b : Str, strLe a b = true → strLe b a = true →
    a = b := by
  intro a
  induction a with
  | nil =>
    intro b _ h2
    cases b with
    | nil => rfl
    | cons y ys => exact absurd h2 (by simp [strLe])
  | cons x xs ih =>
    intro b h1 h2
    cases b with
    | nil => exact absurd h1 (by simp [strLe])
    | cons y ys =>
      have h1' : (if x = y then strLe xs ys else decide (x < y)) = true := h1
      have h2' : (if y = x then strLe ys xs else decide (y < x)) = true := h2
      by_cases hxy : x = y
      · subst hxy
        rw [if_pos rfl] at h1' h2'
        rw [ih ys h1' h2']
      · rw [if_neg hxy] at h1'
        rw [if_neg (fun h => hxy h.symm)] at h2'
        exact absurd (of_decide_eq_true h2') (lt_asymm (of_decide_eq_true h1'))

/-- The key-pair order is total. -/
theorem keyLe_total : ∀ k1 k2 : Key, keyLe k1 k2 = true ∨ keyLe k2 k1 = true := by
  intro k1 k2
  unfold keyLe
  by_cases h : k1.1 = k2.1
  · rw [if_pos h, if_pos h.symm]
    exact strLe_total k1.2 k2.2
  · rw [if_neg h, if_neg (fun hh => h hh.symm)]
    exact strLe_total k1.1 k2.1

/-- The key-pair order is transitive. -/
theorem keyLe_trans : ∀ k1 k2 k3 : Key, keyLe k1 k2 = true → keyLe k2 k3 = true →
    keyLe k1 k3 = true := by
  intro k1 k2 k3 h12 h23
  unfold keyLe at h12 h23 ⊢
  by_cases h12e : k1.1 = k2.1
  · rw [if_pos h12e] at h12
    by_cases h23e : k2.1 = k3.1
    · rw [if_pos h23e] at h23
      rw [if_pos (h12e.trans h23e)]
      exact strLe_trans _ _ _ h12 h23
    · rw [if_neg h23e] at h23
      have hne : k1.1 ≠ k3.1 := by rw [h12e]; exact h23e
      rw [if_neg hne, h12e]
      exact h23
  · rw [if_neg h12e] at h12
    by_cases h23e : k2.1 = k3.1
    · have hne : k1.1 ≠ k3.1 := by rw [← h23e]; exact h12e
      rw [if_neg hne, ← h23e]
      exact h12
    · rw [if_neg h23e] at h23
      by_cases h13e : k1.1 = k3.1
      · exfalso
        exact h12e (strLe_antisymm _ _ h12 (by rw [h13e]; exact h23))
      · rw [if_neg h13e]
        exact strLe_trans _ _ _ h12 h23

/-- The entry sort relation is total. -/
theorem entryLe_total : ∀ e1 e2 : Entry, entryLe e1 e2 = true ∨ entryLe e2 e1 = true :=
  fun e1 e2 => keyLe_total (entryKey e1) (entryKey e2)

/-- The entry sort relation is transitive. -/
theorem entryLe_trans : ∀ e1 e2 e3 : Entry, entryLe e1 e2 = true →
    entryLe e2 e3 = true → entryLe e1 e3 = true :=
  fun _ _ _ h12 h23 => keyLe_trans _ _ _ h12 h23

/-- Membership in an insertion. -/
theorem mem_insertSorted {α : Type} (le : α → α → Bool) (a x : α) (l : List α) :
    x ∈ insertSorted le a l ↔ x = a ∨ x ∈ l := by
  induction l with
  | nil => simp [insertSorted]
  | cons b bs ih =>
    unfold insertSorted
    by_cases h : le a b = true
    · rw [if_pos h]
      simp [List.mem_cons]
    · rw [if_neg h]
      simp only [List.mem_cons, ih]
      tauto

/-- Insertion is a permutation of consing. -/
theorem insertSorted_perm {α : Type} (le : α → α → Bool) (a : α) (l : List α) :
    List.Perm (insertSorted le a l) (a :: l) := by
  induction l with
  | nil => exact List.Perm.refl _
  | cons b bs ih =>
    unfold insertSorted
    by_cases h : le a b = true
    · rw [if_pos h]
    · rw [if_neg h]
      exact (ih.cons b).trans (List.Perm.swap a b bs)

/-- The stable sort permutes its input. -/
theorem pySort_perm {α : Type} (le : α → α → Bool) (l : List α) :
    List.Perm (pySort le l) l := by
  induction l with
  | nil => exact List.Perm.refl _
  | cons a l ih =>
    exact (insertSorted_perm le a (pySort le l)).trans (ih.cons a)

/-- Insertion preserves sortedness for a total transitive relation. -/
theorem pairwise_insertSorted {α : Type} (le : α → α → Bool)
    (htot : ∀ a b, le a b = true ∨ le b a = true)
    (htrans : ∀ a b c, le a b = true → le b c = true → le a c = true)
    (a : α) (l : List α) (h : l.Pairwise (fun x y => le x y = true)) :
    (insertSorted le a l).Pairwise (fun x y => le x y = true) := by
  induction l with
  | nil => simp [insertSorted]
  | cons b bs ih =>
    obtain ⟨hb, hbs⟩ := List.pairwise_cons.mp h
    unfold insertSorted
    by_cases hab : le a b = true
    · rw [if_pos hab]
      refine List.Pairwise.cons ?_ h
      intro x hx
      rcases List.mem_cons.mp hx with hx | hx
      · subst hx; exact hab
      · exact htrans a b x hab (hb x hx)
    · rw [if_neg hab]
      have hba : le b a = true := (htot a b).resolve_left hab
      refine List.Pairwise.cons ?_ (ih hbs)
      intro x hx
      rcases (mem_insertSorted le a x bs).mp hx with hx | hx
      · subst hx; exact hba
      · exact hb x hx

/-- The stable sort sorts, for a total transitive relation. -/
theorem pairwise_pySort {α : Type} (le : α → α → Bool)
    (htot : ∀ a b, le a b = true ∨ le b a = true)
    (htrans : ∀ a b c, le a b = true → le b c = true → le a c = true)
    (l : List α) : (pySort le l).Pairwise (fun x y => le x y = true) := by
  induction l with
  | nil => simp [pySort]
  | cons a l ih => exact pairwise_insertSorted le htot htrans a (pySort le l) ih

/-- A property of candidates survives an `Except`-monadic fold whose step
preserves it. -/
theorem foldlM_except_inv {β : Type} (P : Cand → Prop)
    (step : List Cand → β → Except Unit (List Cand))
    (hstep : ∀ acc b res, step acc b = .ok res → (∀ c ∈ acc, P c) → ∀ c ∈ res, P c) :
    ∀ (l : List β) (acc res : List Cand),
      List.foldlM step acc l = .ok res → (∀ c ∈ acc, P c) → ∀ c ∈ res, P c := by
  intro l
  induction l with
  | nil =>
    intro acc res h hacc
    simp only [List.foldlM_nil] at h
    have : acc = res := by simpa [pure, Except.pure] using h
    subst this
    exact hacc
  | cons b t ih =>
    intro acc res h hacc
    simp only [List.foldlM_cons] at h
    cases hs : step acc b with
    | error e =>
      rw [hs] at h
      exact absurd h (by simp [Bind.bind, Except.bind])
    | ok acc' =>
      rw [hs] at h
      have h' : List.foldlM step acc' t = .ok res := by
        simpa [Bind.bind, Except.bind] using h
      exact ih acc' res h' (hstep acc b acc' hs hacc)

/-- A successful per-headphone candidate carries the key of its own
entry. -/
theorem hpCandidate_key (sn : Str) (pri : ℕ) (ff : Str) (hp : HeadphoneDir) (c : Cand)
    (h : hpCandidate sn pri ff hp = .ok (some c)) : c.1 = entryKey c.2.2 := by
  unfold hpCandidate at h
  split at h
  · exact absurd h (by simp)
  · split at h
    · exact absurd h (by simp)
    · split at h
      · exact absurd h (by simp)
      · exact absurd h (by simp)
      · split at h
        · exact absurd h (by simp)
        · simp only [Except.ok.injEq, Option.some.injEq] at h
          subst h
          rfl

/-- All candidates collected from one target carry their own entry's
key. -/
theorem targetCands_key (sn : Str) (pri : ℕ) (t : TargetDir) (res : List Cand)
    (h : targetCands sn pri t = .ok res) : ∀ c ∈ res, c.1 = entryKey c.2.2 := by
  unfold targetCands at h
  split at h
  · simp only [Except.ok.injEq] at h
    subst h
    intro c hc
    exact absurd hc (List.not_mem_nil c)
  · refine foldlM_except_inv (fun c => c.1 = entryKey c.2.2) _ ?_ t.headphones [] res h
      (by intro c hc; exact absurd hc (List.not_mem_nil c))
    intro acc hp res' hs hacc
    cases hh : hpCandidate sn pri (detect_form_factor t.name) hp with
    | error e =>
      rw [hh] at hs
      exact absurd hs (by simp [Except.map])
    | ok o =>
      rw [hh] at hs
      have hres : acc ++ o.toList = res' := by simpa [Except.map] using hs
      subst hres
      intro c hc
      rcases List.mem_append.mp hc with hc | hc
      · exact hacc c hc
      · cases o with
        | none => exact absurd hc (by simp)
        | some c0 =>
          have hc0 : c = c0 := by simpa using hc
          subst hc0
          exact hpCandidate_key _ _ _ _ _ hh

/-- All candidates collected from one source carry their own entry's
key. -/
theorem sourceCands_key (fs : FS) (info : Str × ℕ × Str) (res : List Cand)
    (h : sourceCands fs info = .ok res) : ∀ c ∈ res, c.1 = entryKey c.2.2 := by
  unfold sourceCands at h
  split at h
  · simp only [Except.ok.injEq] at h
    subst h
    intro c hc
    exact absurd hc (List.not_mem_nil c)
  · rename_i targets heq
    refine foldlM_except_inv (fun c => c.1 = entryKey c.2.2) _ ?_ targets [] res h
      (by intro c hc; exact absurd hc (List.not_mem_nil c))
    intro acc t res' hs hacc
    cases hh : targetCands info.2.2 info.2.1 t with
    | error e =>
      rw [hh] at hs
      exact absurd hs (by simp [Except.map])
    | ok cs' =>
      rw [hh] at hs
      have hres : acc ++ cs' = res' := by simpa [Except.map] using hs
      subst hres
      intro c hc
      rcases List.mem_append.mp hc with hc | hc
      · exact hacc c hc
      · exact targetCands_key _ _ _ _ hh c hc

/-- All candidates produced by the traversal carry their own entry's
key. -/
theorem candidates_key (fs : FS) (cs : List Cand)
    (h : candidates fs = .ok cs) : ∀ c ∈ cs, c.1 = entryKey c.2.2 := by
  unfold candidates at h
  refine foldlM_except_inv (fun c => c.1 = entryKey c.2.2) _ ?_ SOURCE_INFO [] cs h
    (by intro c hc; exact absurd hc (List.not_mem_nil c))
  intro acc info res' hs hacc
  cases hh : sourceCands fs info with
  | error e =>
    rw [hh] at hs
    exact absurd hs (by simp [Except.map])
  | ok cs' =>
    rw [hh] at hs
    have hres : acc ++ cs' = res' := by simpa [Except.map] using hs
    subst hres
    intro c hc
    rcases List.mem_append.mp hc with hc | hc
    · exact hacc c hc
    · exact sourceCands_key _ _ _ hh c hc

/-- The keys of the accumulation map, in insertion order. -/
def keysOf (m : List (Key × ℕ × Entry)) : List Key := m.map (fun kv => kv.1)

/-- A key looks up to nothing exactly when it is not among the keys. -/
theorem lookupC_eq_none_iff (m : List (Key × ℕ × Entry)) (k : Key) :
    lookupC m k = none ↔ k ∉ keysOf m := by
  induction m with
  | nil => simp [lookupC, keysOf]
  | cons kv rest ih =>
    obtain ⟨k1, v1⟩ := kv
    simp only [keysOf, List.map_cons, List.mem_cons]
    by_cases hk : k1 = k
    · simp only [lookupC, if_pos hk]
      constructor
      · intro h; exact absurd h (by simp)
      · intro h; exact absurd (Or.inl hk.symm) h
    · simp only [lookupC, if_neg hk]
      rw [ih]
      constructor
      · intro h hm
        rcases hm with hm | hm
        · exact hk hm.symm
        · exact h hm
      · intro h hm
        exact h (Or.inr hm)

/-- Replacing a value in place leaves the key sequence unchanged. -/
theorem keysOf_replaceC (m : List (Key × ℕ × Entry)) (k : Key) (v : ℕ × Entry) :
    keysOf (replaceC m k v) = keysOf m := by
  induction m with
  | nil => rfl
  | cons kv rest ih =>
    obtain ⟨k1, v1⟩ := kv
    by_cases hk : k1 = k
    · subst hk
      show keysOf ((if (k1, v1).1 = k1 then (k1, v) else (k1, v1)) :: replaceC rest k1 v) =
        keysOf ((k1, v1) :: rest)
      rw [if_pos rfl]
      show k1 :: keysOf (replaceC rest k1 v) = k1 :: keysOf rest
      rw [ih]
    · show keysOf ((if (k1, v1).1 = k then (k, v) else (k1, v1)) :: replaceC rest k v) =
        keysOf ((k1, v1) :: rest)
      rw [if_neg hk]
      show k1 :: keysOf (replaceC rest k v) = k1 :: keysOf rest
      rw [ih]

/-- The invariant of the accumulation map: every stored key is its entry's
key, and the keys are pairwise distinct. -/
def mapInv (m : List (Key × ℕ × Entry)) : Prop :=
  (∀ kv ∈ m, kv.1 = entryKey kv.2.2) ∧ (keysOf m).Nodup

/-- One merge step preserves the accumulation-map invariant. -/
theorem mergeStep_inv (m : List (Key × ℕ × Entry)) (c : Cand)
    (hc : c.1 = entryKey c.2.2) (h : mapInv m) : mapInv (mergeStep m c) := by
  obtain ⟨halign, hnodup⟩ := h
  unfold mergeStep
  cases hl : lookupC m c.1 with
  | none =>
    constructor
    · intro kv hkv
      rcases List.mem_append.mp hkv with hkv | hkv
      · exact halign kv hkv
      · have : kv = (c.1, c.2) := by simpa using hkv
        subst this
        exact hc
    · have hkeys : keysOf (m ++ [(c.1, c.2)]) = keysOf m ++ [c.1] := by
        simp [keysOf]
      rw [hkeys, List.nodup_append]
      refine ⟨hnodup, List.nodup_singleton _, fun x hx hxs => ?_⟩
      have hxe : x = c.1 := by simpa using hxs
      subst hxe
      exact (lookupC_eq_none_iff m c.1).mp hl hx
  | some pv =>
    obtain ⟨p', e'⟩ := pv
    show mapInv (if c.2.1 < p' then replaceC m c.1 c.2 else m)
    by_cases hp : c.2.1 < p'
    · rw [if_pos hp]
      constructor
      · intro kv hkv
        rcases List.mem_map.mp hkv with ⟨kv0, hkv0, heq⟩
        by_cases hk : kv0.1 = c.1
        · rw [if_pos hk] at heq
          subst heq
          exact hc
        · rw [if_neg hk] at heq
          subst heq
          exact halign kv0 hkv0
      · rw [keysOf_replaceC]
        exact hnodup
    · rw [if_neg hp]
      exact ⟨halign, hnodup⟩

/-- The fully accumulated map satisfies the invariant whenever every
candidate carries its own entry's key. -/
theorem allEntriesList_inv (cs : List Cand)
    (hcs : ∀ c ∈ cs, c.1 = entryKey c.2.2) : mapInv (allEntriesList cs) := by
  unfold allEntriesList
  suffices h : ∀ (l : List Cand), (∀ c ∈ l, c.1 = entryKey c.2.2) →
      ∀ m, mapInv m → mapInv (l.foldl mergeStep m) by
    exact h cs hcs [] ⟨by simp, by simp [keysOf]⟩
  intro l
  induction l with
  | nil => intro _ m hm; exact hm
  | cons c rest ih =>
    intro hP m hm
    rw [List.foldl_cons]
    exact ih (fun x hx => hP x (List.mem_cons_of_mem _ hx))
      (mergeStep m c) (mergeStep_inv m c (hP c (List.mem_cons_self _ _)) hm)

/-- Claim C3: every emitted catalog has its entries sorted ascending by
the pair (manufacturer lowercased, model lowercased), has that key unique
across all entries, and carries an `entryCount` equal to the length of the
entries sequence. -/
theorem C3_catalog_invariants (fs : FS) (now : Str) (db : Database)
    (h : buildDatabase fs now = .ok db) :
    db.entries.Pairwise (fun a b => keyLe (entryKey a) (entryKey b) = true) ∧
    (db.entries.map entryKey).Nodup ∧
    db.entryCount = db.entries.length := by
  unfold buildDatabase at h
  cases hc : candidates fs with
  | error e =>
    rw [hc] at h
    exact absurd h (by simp [Except.map])
  | ok cs =>
    rw [hc] at h
    have hdb : (⟨1, now,
        (pySort entryLe ((allEntriesList cs).map (fun kv => kv.2.2))).length,
        pySort entryLe ((allEntriesList cs).map (fun kv => kv.2.2))⟩ : Database) = db := by
      simpa [Except.map] using h
    subst hdb
    refine ⟨?_, ?_, rfl⟩
    · exact pairwise_pySort entryLe entryLe_total entryLe_trans _
    · have hinv := allEntriesList_inv cs (candidates_key fs cs hc)
      have hperm : List.Perm
          ((pySort entryLe ((allEntriesList cs).map (fun kv => kv.2.2))).map entryKey)
          (((allEntriesList cs).map (fun kv => kv.2.2)).map entryKey) :=
        (pySort_perm entryLe ((allEntriesList cs).map (fun kv => kv.2.2))).map entryKey
      rw [hperm.nodup_iff]
      rw [List.map_map]
      have hkeys : (allEntriesList cs).map (entryKey ∘ fun kv => kv.2.2) =
          keysOf (allEntriesList cs) := by
        apply List.map_congr_left
        intro kv hkv
        exact (hinv.1 kv hkv).symm
      rw [hkeys]
      exact hinv.2

/-- The input tree of the C3 witness: one source, one target, two
headphones listed in reverse alphabetical order. -/
def fsC3 : FS :=
  ⟨[("oratory1990".toList,
     [⟨"over-ear targets".toList, true,
       [⟨"Sony B".toList, true, .content ("Filter 1: ON PK Fc 100 Hz".toList)⟩,
        ⟨"Sony A".toList, true, .content ("Filter 1: ON PK Fc 200 Hz".toList)⟩]⟩])]⟩

/-- The catalog the builder emits on `fsC3`. -/
def dbC3 : Database :=
  ⟨1, "T".toList, 2,
   [⟨"oratory1990/Sony A".toList, "Sony".toList, "A".toList, "oratory1990".toList,
     "over-ear".toList, lit0, [⟨.peaking, ⟨false, 200, 0⟩, lit707, lit0⟩]⟩,
    ⟨"oratory1990/Sony B".toList, "Sony".toList, "B".toList, "oratory1990".toList,
     "over-ear".toList, lit0, [⟨.peaking, ⟨false, 100, 0⟩, lit707, lit0⟩]⟩]⟩

/-- Witness for C3: the two-entry catalog built from `fsC3` is sorted,
key-unique, and correctly counted. -/
theorem C3_catalog_invariants_witness :
    buildDatabase fsC3 ("T".toList) = .ok dbC3 ∧
    dbC3.entries.Pairwise (fun a b => keyLe (entryKey a) (entryKey b) = true) ∧
    (dbC3.entries.map entryKey).Nodup ∧
    dbC3.entryCount = dbC3.entries.length := by
  have h := C3_catalog_invariants fsC3 ("T".toList) dbC3 rfl
  exact ⟨rfl, h.1, h.2.1, h.2.2⟩

end GenIndex
